import Mathlib

/-!
Shallow embedding of the resource-oriented route generators (`createResource`,
`createResources`), the route-map composer (`createRoutes`) and the `redirect`
response helper of the repository, together with proofs of the specified
properties.

The generators and the composer live in `resource.ts` and `route-map.ts`,
which are exercised by the test suite in the corpus; their bodies are
modelled from the specification (action tables, filter/rename/param rules,
composer normalization), matching every concrete behavior asserted by the
test suite.  The `redirect` helper is embedded directly from
`packages/fetch-router/src/lib/response-helpers/redirect.ts`.
-/

namespace Remix

/-- HTTP methods used by the route builders (`ANY` is the wildcard method a
bare string pattern gets in `createRoutes`). -/
inductive Method where
  | GET
  | POST
  | PUT
  | PATCH
  | DELETE
  | ANY
deriving DecidableEq, Repr

/-- An immutable (method, pattern) pair with value equality, as in
`route-map.ts`.  Modelled from the spec: the `Route` class stores the method
and the path-pattern string and compares structurally. -/
structure Route where
  method : Method
  pattern : String
deriving DecidableEq, Repr

/-- The closed enumeration of resource actions. -/
inductive ActionName where
  | index
  | new
  | «show»
  | create
  | edit
  | update
  | destroy
deriving DecidableEq, Repr, Fintype

/-- The canonical string label of each action (the map key used when no
rename is given). -/
def ActionName.label : ActionName → String
  | .index => "index"
  | .new => "new"
  | .«show» => "show"
  | .create => "create"
  | .edit => "edit"
  | .update => "update"
  | .destroy => "destroy"

/-- Modelled from the spec: `ResourceMethods` from `resource.ts`, the
canonical emission order of the singleton generator (no `index`; `new` comes
before `show`). -/
def ResourceMethods : List ActionName :=
  [.new, .«show», .create, .edit, .update, .destroy]

/-- Modelled from the spec: `ResourcesMethods` from `resource.ts`, the
canonical emission order of the collection generator (`index` first, then
`new` before `show`). -/
def ResourcesMethods : List ActionName :=
  [.index, .new, .«show», .create, .edit, .update, .destroy]

/-- The `{only, names, param}` options object of the generators.  `names`
is an association list, mirroring a JS object's own ordered keys. -/
structure ResourceOptions where
  only : Option (List ActionName)
  names : List (ActionName × String)
  param : Option String
deriving DecidableEq, Repr

/-- Calling a generator with no options argument. -/
def noOptions : ResourceOptions := ⟨none, [], none⟩

/-- First-match lookup of a custom name for an action (JS object property
access on `options.names`). -/
def lookupName : List (ActionName × String) → ActionName → Option String
  | [], _ => none
  | q :: rest, a => if q.1 = a then some q.2 else lookupName rest a

/-- The output key of an action: its custom name when present, otherwise its
canonical label. -/
def renameKey (names : List (ActionName × String)) (a : ActionName) : String :=
  (lookupName names a).getD a.label

/-- The actions that survive the `only` filter, in canonical order. -/
def keptActions (canonical : List ActionName) (only : Option (List ActionName)) :
    List ActionName :=
  match only with
  | none => canonical
  | some l => canonical.filter (fun a => decide (a ∈ l))

/-- Modelled from the spec: the action → (method, pattern) table of the
singleton generator in `resource.ts`.  Patterns prepend `/` to the caller's
base path, as the spec's concrete scenarios and the test suite require
(`resource('book').show = GET /book`).  `index` is mapped like `show` but is
never emitted, since it is not in `ResourceMethods`. -/
def singletonRoute (base : String) : ActionName → Route
  | .index => ⟨.GET, "/" ++ base⟩
  | .new => ⟨.GET, "/" ++ base ++ "/new"⟩
  | .«show» => ⟨.GET, "/" ++ base⟩
  | .create => ⟨.POST, "/" ++ base⟩
  | .edit => ⟨.GET, "/" ++ base ++ "/edit"⟩
  | .update => ⟨.PUT, "/" ++ base⟩
  | .destroy => ⟨.DELETE, "/" ++ base⟩

/-- Modelled from the spec: the action → (method, pattern) table of the
collection generator in `resource.ts`.  Member-scoped actions insert the
`/:param` segment after the base path. -/
def collectionRoute (base : String) (param : String) : ActionName → Route
  | .index => ⟨.GET, "/" ++ base⟩
  | .new => ⟨.GET, "/" ++ base ++ "/new"⟩
  | .«show» => ⟨.GET, "/" ++ base ++ "/:" ++ param⟩
  | .create => ⟨.POST, "/" ++ base⟩
  | .edit => ⟨.GET, "/" ++ base ++ "/:" ++ param ++ "/edit"⟩
  | .update => ⟨.PUT, "/" ++ base ++ "/:" ++ param⟩
  | .destroy => ⟨.DELETE, "/" ++ base ++ "/:" ++ param⟩

/-- Modelled from the spec: `createResource` from `resource.ts`.  Emits the
singleton actions in canonical order, filtered by `only`, each under its
(possibly renamed) key.  The result is an ordered map, embedded as a list of
key/route pairs in emission order. -/
def createResource (base : String) (opts : ResourceOptions) : List (String × Route) :=
  (keptActions ResourceMethods opts.only).map
    (fun a => (renameKey opts.names a, singletonRoute base a))

/-- Modelled from the spec: `createResources` from `resource.ts`.  Same as
`createResource` but over the collection action set, with the member param
segment (default `id`, overridden by `options.param`). -/
def createResources (base : String) (opts : ResourceOptions) : List (String × Route) :=
  (keptActions ResourcesMethods opts.only).map
    (fun a => (renameKey opts.names a, collectionRoute base (opts.param.getD "id") a))

mutual
/-- Modelled from the spec: the input accepted by `createRoutes` in
`route-map.ts`: a bare pattern string, an explicit `{method, pattern}`
descriptor, an already-built `Route`, or a nested key-ordered object. -/
inductive RouteInput where
  | str : String → RouteInput
  | desc : Method → String → RouteInput
  | leaf : Route → RouteInput
  | node : InputEntries → RouteInput
/-- The ordered entries of a nested `createRoutes` input object. -/
inductive InputEntries where
  | nil : InputEntries
  | cons : String → RouteInput → InputEntries → InputEntries
end

mutual
/-- The output of `createRoutes`: a structurally identical tree whose leaves
are all `Route` values. -/
inductive RouteMap where
  | leaf : Route → RouteMap
  | node : MapEntries → RouteMap
/-- The ordered entries of a route-map node. -/
inductive MapEntries where
  | nil : MapEntries
  | cons : String → RouteMap → MapEntries → MapEntries
end

mutual
/-- Modelled from the spec: `createRoutes` from `route-map.ts`.  Normalizes
every leaf to a `Route` (a bare string gets the wildcard `ANY` method), keeps
key order, and performs no prefix composition whatsoever. -/
def createRoutes : RouteInput → RouteMap
  | .str s => .leaf ⟨.ANY, s⟩
  | .desc m p => .leaf ⟨m, p⟩
  | .leaf r => .leaf r
  | .node es => .node (createRoutesEntries es)
/-- `createRoutes` applied entrywise to a node's ordered entries. -/
def createRoutesEntries : InputEntries → MapEntries
  | .nil => .nil
  | .cons k v rest => .cons k (createRoutes v) (createRoutesEntries rest)
end

mutual
/-- Re-reads an already-built route map as composer input, treating its
`Route` leaves as leaves. -/
def RouteMap.toInput : RouteMap → RouteInput
  | .leaf r => .leaf r
  | .node es => .node es.toInput
/-- Entrywise `RouteMap.toInput`. -/
def MapEntries.toInput : MapEntries → InputEntries
  | .nil => .nil
  | .cons k v rest => .cons k v.toInput rest.toInput
end

/-- First-match lookup of a key among a node's entries. -/
def MapEntries.lookup : MapEntries → String → Option RouteMap
  | .nil, _ => none
  | .cons k v rest, n => if k == n then some v else rest.lookup n

/-- The child of a route map under a key (`none` on a leaf). -/
def RouteMap.child : RouteMap → String → Option RouteMap
  | .leaf _, _ => none
  | .node es, n => es.lookup n

/-- Follows a path of keys down a route map. -/
def RouteMap.atPath : RouteMap → List String → Option RouteMap
  | m, [] => some m
  | m, k :: rest =>
    match m.child k with
    | some c => c.atPath rest
    | none => none

/-- Injects a generator's output (an ordered list of key/route pairs) into a
composer input node's entries, as spreading it into an object literal does. -/
def entriesOfRoutes : List (String × Route) → InputEntries
  | [] => .nil
  | (k, r) :: rest => .cons k (.leaf r) (entriesOfRoutes rest)

/-- Concatenation of input entries (the object-spread `{...a, b: ...}`). -/
def InputEntries.append : InputEntries → InputEntries → InputEntries
  | .nil, es => es
  | .cons k v rest, es => .cons k v (rest.append es)

/-- The nested-resources composition from the test suite:
`route({brands: {...resources('brands'), products: resources('brands/:brandId/products')}})`'s
input tree. -/
def nestedBrandsInput : RouteInput :=
  .node
    (.cons "brands"
      (.node
        ((entriesOfRoutes (createResources "brands" noOptions)).append
          (.cons "products"
            (.node (entriesOfRoutes (createResources "brands/:brandId/products" noOptions)))
            .nil)))
      .nil)

/-- One HTTP headers object, embedded as its ordered (name, value) entries;
names compare case-insensitively as in the Fetch `Headers` class. -/
structure HeadersModel where
  entries : List (String × String)
deriving DecidableEq, Repr

/-- `Headers.prototype.has`: case-insensitive name membership. -/
def HeadersModel.hasName (h : HeadersModel) (n : String) : Bool :=
  h.entries.any (fun q => q.1.toLower == n.toLower)

/-- `Headers.prototype.get`: the comma-joined values stored under the name,
or `none` when absent. -/
def HeadersModel.getName (h : HeadersModel) (n : String) : Option String :=
  let vs := (h.entries.filter (fun q => q.1.toLower == n.toLower)).map (fun q => q.2)
  if vs.isEmpty then none else some (String.intercalate ", " vs)

/-- `Headers.prototype.set`: replaces any values stored under the name with
the single given value. -/
def HeadersModel.setName (h : HeadersModel) (n v : String) : HeadersModel :=
  ⟨(h.entries.filter (fun q => !(q.1.toLower == n.toLower))) ++ [(n, v)]⟩

/-- The `ResponseInit` object: optional status, statusText and headers. -/
structure ResponseInitModel where
  status : Option Nat
  statusText : Option String
  headers : Option (List (String × String))
deriving DecidableEq, Repr

/-- The `init` argument of `redirect`: absent, a bare status number, or a
`ResponseInit` object. -/
inductive RedirectInit where
  | noInit
  | statusNum : Nat → RedirectInit
  | respInit : ResponseInitModel → RedirectInit
deriving DecidableEq, Repr

/-- The `location` argument of `redirect`: a string or a `URL` object
(embedded by its `toString()` serialization). -/
inductive LocationArg where
  | str : String → LocationArg
  | url : String → LocationArg
deriving DecidableEq, Repr

/-- The string form of the `location` argument
(`typeof location === 'string' ? location : location.toString()`). -/
def LocationArg.toLocationString : LocationArg → String
  | .str s => s
  | .url href => href

/-- The observable parts of the `Response` built by `redirect` (the body is
always `null`). -/
structure ResponseModel where
  status : Nat
  statusText : Option String
  headers : HeadersModel
deriving DecidableEq, Repr

/-- `redirect` from `redirect.ts`: status defaults to 302, a numeric `init`
becomes the status, a `ResponseInit` is spread after the local status (so its
own `status` wins when present), and the `Location` header is set to the
location string only when `init`'s headers do not already carry one. -/
def redirect (location : LocationArg) (init : RedirectInit) : ResponseModel :=
  let status : Nat :=
    match init with
    | .statusNum n => n
    | _ => 302
  let initObj : Option ResponseInitModel :=
    match init with
    | .respInit ri => some ri
    | _ => none
  let headers0 : HeadersModel := ⟨(initObj.bind (fun ri => ri.headers)).getD []⟩
  let headers : HeadersModel :=
    if headers0.hasName "Location" then headers0
    else headers0.setName "Location" location.toLocationString
  let finalStatus : Nat :=
    match initObj.bind (fun ri => ri.status) with
    | some s => s
    | none => status
  ⟨finalStatus, initObj.bind (fun ri => ri.statusText), headers⟩

/-- Follows the claim's words: the status `redirect` is claimed to produce —
`init` itself when numeric, `init.status` when given, else 302. -/
def redirectStatusSpec : RedirectInit → Nat
  | .noInit => 302
  | .statusNum n => n
  | .respInit ri =>
    match ri.status with
    | some s => s
    | none => 302

/-- The pre-existing `Location` header carried by the `init` argument, when
any. -/
def initLocationHeader : RedirectInit → Option String
  | .respInit ri => HeadersModel.getName ⟨ri.headers.getD []⟩ "Location"
  | _ => none

/-- Follows the claim's words: the `Location` header value `redirect` is
claimed to produce — the pre-existing one from `init.headers` when present,
else the string form of `location`. -/
def redirectLocationSpec (location : LocationArg) (init : RedirectInit) : Option String :=
  match initLocationHeader init with
  | some v => some v
  | none => some location.toLocationString

/-! ## Helper lemmas -/

/-- Canonical labels are distinct: the label determines the action. -/
theorem ActionName.label_injective : ∀ x y : ActionName, x.label = y.label → x = y := by
  decide

/-- Erasing one action's entry from `names` does not change the lookup of any
other action. -/
theorem lookupName_filter_ne (names : List (ActionName × String)) (a b : ActionName)
    (h : b ≠ a) :
    lookupName (names.filter (fun q => !(q.1 == a))) b = lookupName names b := by
  induction names with
  | nil => rfl
  | cons q rest ih =>
    by_cases hq : q.1 = a
    · have hqb : ¬q.1 = b := fun hb => h ((hb.symm.trans hq))
      simp only [List.filter_cons, hq, beq_self_eq_true, Bool.not_true, if_neg,
        Bool.false_eq_true, not_false_iff, ite_false]
      rw [ih]
      simp [lookupName, hqb]
    · have hq' : (!(q.1 == a)) = true := by simp [hq]
      simp only [List.filter_cons, hq', if_pos]
      by_cases hqb : q.1 = b
      · simp [lookupName, hqb]
      · simp [lookupName, hqb, ih]

/-- Key lookup in an association list with distinct keys is invariant under
permutation of its entries. -/
theorem lookupName_perm {n₁ n₂ : List (ActionName × String)} (hp : n₁.Perm n₂)
    (hd : (n₁.map Prod.fst).Nodup) (a : ActionName) :
    lookupName n₁ a = lookupName n₂ a := by
  induction hp with
  | nil => rfl
  | cons q _ ih =>
    simp only [List.map_cons, List.nodup_cons] at hd
    by_cases hq : q.1 = a
    · simp [lookupName, hq]
    · simp [lookupName, hq, ih hd.2]
  | swap x y rest =>
    simp only [List.map_cons, List.nodup_cons, List.mem_cons] at hd
    have hxy : y.1 ≠ x.1 := fun h => hd.1 (Or.inl h)
    by_cases hx : x.1 = a <;> by_cases hy : y.1 = a
    · exact absurd (hy.trans hx.symm) hxy
    · simp [lookupName, hx, hy]
    · simp [lookupName, hx, hy]
    · simp [lookupName, hx, hy]
  | trans h₁₂ _ ih₁ ih₂ =>
    have hd₂ := ((h₁₂.map Prod.fst).nodup_iff).mp hd
    exact (ih₁ hd).trans (ih₂ hd₂)

/-- `only` acts through membership only: lists with the same members keep the
same actions. -/
theorem keptActions_congr (canonical : List ActionName) {o₁ o₂ : List ActionName}
    (h : ∀ a, a ∈ o₁ ↔ a ∈ o₂) :
    keptActions canonical (some o₁) = keptActions canonical (some o₂) := by
  simp only [keptActions]
  exact List.filter_congr (fun a _ => by simp [h a])

/-- A kept action is one of the canonical actions and, when `only` is given,
one of its members. -/
theorem mem_keptActions {canonical : List ActionName} {only : Option (List ActionName)}
    {b : ActionName} (h : b ∈ keptActions canonical only) :
    b ∈ canonical ∧ ∀ l, only = some l → b ∈ l := by
  cases only with
  | none => exact ⟨h, fun l hl => by cases hl⟩
  | some l =>
    simp only [keptActions, List.mem_filter, decide_eq_true_eq] at h
    refine ⟨h.1, fun l' hl' => ?_⟩
    cases hl'
    exact h.2

/-- The key list of `createResources` is the kept actions mapped through the
rename pass. -/
theorem map_fst_createResources (base : String) (opts : ResourceOptions) :
    (createResources base opts).map Prod.fst
      = (keptActions ResourcesMethods opts.only).map (renameKey opts.names) := by
  simp [createResources, List.map_map]

/-- The key list of `createResource` is the kept actions mapped through the
rename pass. -/
theorem map_fst_createResource (base : String) (opts : ResourceOptions) :
    (createResource base opts).map Prod.fst
      = (keptActions ResourceMethods opts.only).map (renameKey opts.names) := by
  simp [createResource, List.map_map]

mutual
/-- `createRoutes` restores an already-normalized route map unchanged. -/
theorem createRoutes_toInput : ∀ m : RouteMap, createRoutes m.toInput = m
  | .leaf _ => rfl
  | .node es => by
    rw [RouteMap.toInput, createRoutes, createRoutesEntries_toInput es]
/-- Entrywise version of `createRoutes_toInput`. -/
theorem createRoutesEntries_toInput :
    ∀ es : MapEntries, createRoutesEntries es.toInput = es
  | .nil => rfl
  | .cons k v rest => by
    rw [MapEntries.toInput, createRoutesEntries, createRoutes_toInput v,
      createRoutesEntries_toInput rest]
end

/-- A name is absent from a headers object exactly when `get` returns
`none`. -/
theorem getName_none_iff (h : HeadersModel) (n : String) :
    h.getName n = none ↔ h.hasName n = false := by
  simp only [HeadersModel.getName, HeadersModel.hasName]
  constructor
  · intro hg
    by_cases he : ((h.entries.filter (fun q => q.1.toLower == n.toLower)).map
        (fun q => q.2)).isEmpty
    · rw [List.isEmpty_iff, List.map_eq_nil_iff, List.filter_eq_nil_iff] at he
      rw [List.any_eq_false]
      intro x hx
      exact he x hx
    · simp [he] at hg
  · intro ha
    rw [List.any_eq_false] at ha
    have he : h.entries.filter (fun q => q.1.toLower == n.toLower) = [] :=
      List.filter_eq_nil_iff.mpr ha
    simp [he]

/-- Filtering with a predicate immediately after filtering with its negation
leaves nothing. -/
theorem filter_not_filter {α : Type} (l : List α) (p : α → Bool) :
    (l.filter (fun a => !(p a))).filter p = [] := by
  induction l with
  | nil => rfl
  | cons x xs ih =>
    by_cases hx : p x = true
    · simp [List.filter_cons, hx, ih]
    · simp only [Bool.not_eq_true] at hx
      simp [List.filter_cons, hx, ih]

/-- After `set`, `get` returns exactly the single stored value. -/
theorem getName_setName (h : HeadersModel) (n v : String) :
    (h.setName n v).getName n = some v := by
  have hfil : ((h.setName n v).entries.filter (fun q => q.1.toLower == n.toLower))
      = [(n, v)] := by
    simp only [HeadersModel.setName, List.filter_append,
      filter_not_filter h.entries (fun q => q.1.toLower == n.toLower)]
    simp [List.filter_cons]
  simp [HeadersModel.getName, hfil]
  rfl

/-! ## Claim theorems -/

/-- C3: `resources('books')` with no options returns, in exact key order,
`index = GET /books`, `new = GET /books/new`, `show = GET /books/:id`,
`create = POST /books`, `edit = GET /books/:id/edit`, `update = PUT
/books/:id`, `destroy = DELETE /books/:id`. -/
theorem resources_books_default :
    createResources "books" noOptions =
      [("index", ⟨.GET, "/books"⟩),
       ("new", ⟨.GET, "/books/new"⟩),
       ("show", ⟨.GET, "/books/:id"⟩),
       ("create", ⟨.POST, "/books"⟩),
       ("edit", ⟨.GET, "/books/:id/edit"⟩),
       ("update", ⟨.PUT, "/books/:id"⟩),
       ("destroy", ⟨.DELETE, "/books/:id"⟩)] := by
  decide

/-- C4 counterexample: the claim says the `show` pattern of
`resource(basePath)` is exactly the given `basePath` string, but
`resource('book')` emits `show = GET /book`, and `"/book" ≠ "book"`: every
pattern gets a leading `/` prepended to the base path. -/
theorem resource_show_pattern_not_basePath :
    (createResource "book" noOptions).find? (fun q => q.1 == "show")
        = some ("show", ⟨.GET, "/book"⟩)
      ∧ "/book" ≠ "book" := by
  decide

/-- C4 amended: for every `basePath`, `resource(basePath)` maps `new` to
`(GET, /basePath/new)`, `show` to `(GET, /basePath)`, `create` to
`(POST, /basePath)`, `edit` to `(GET, /basePath/edit)`, `update` to
`(PUT, /basePath)` and `destroy` to `(DELETE, /basePath)`: each pattern is a
plain string concatenation of a leading `/`, the base path and a single-`/`
separated trailing segment; the `show` pattern is `/` ++ `basePath`. -/
theorem resource_default_action_table (base : String) :
    createResource base noOptions =
      [("new", ⟨.GET, "/" ++ base ++ "/new"⟩),
       ("show", ⟨.GET, "/" ++ base⟩),
       ("create", ⟨.POST, "/" ++ base⟩),
       ("edit", ⟨.GET, "/" ++ base ++ "/edit"⟩),
       ("update", ⟨.PUT, "/" ++ base⟩),
       ("destroy", ⟨.DELETE, "/" ++ base⟩)] := rfl

/-- C5: `resources(basePath, {param: p})` inserts `/:p` after the base path,
before any trailing segment, in exactly the member-scoped actions `show`,
`edit`, `update` and `destroy`; `index`, `new` and `create` carry no member
parameter segment; the param defaults to `id`; and
`resources('posts', {param:'slug'})` gives `show = GET /posts/:slug` with
`index`, `new` and `create` the same as without the option. -/
theorem resources_param_substitution (base : String) (p : String) :
    createResources base ⟨none, [], some p⟩ =
        [("index", ⟨.GET, "/" ++ base⟩),
         ("new", ⟨.GET, "/" ++ base ++ "/new"⟩),
         ("show", ⟨.GET, "/" ++ base ++ "/:" ++ p⟩),
         ("create", ⟨.POST, "/" ++ base⟩),
         ("edit", ⟨.GET, "/" ++ base ++ "/:" ++ p ++ "/edit"⟩),
         ("update", ⟨.PUT, "/" ++ base ++ "/:" ++ p⟩),
         ("destroy", ⟨.DELETE, "/" ++ base ++ "/:" ++ p⟩)]
      ∧ createResources base noOptions = createResources base ⟨none, [], some "id"⟩
      ∧ (createResources "posts" ⟨none, [], some "slug"⟩).find? (fun q => q.1 == "show")
          = some ("show", ⟨.GET, "/posts/:slug"⟩)
      ∧ (createResources "posts" ⟨none, [], some "slug"⟩).find? (fun q => q.1 == "index")
          = (createResources "posts" noOptions).find? (fun q => q.1 == "index")
      ∧ (createResources "posts" ⟨none, [], some "slug"⟩).find? (fun q => q.1 == "new")
          = (createResources "posts" noOptions).find? (fun q => q.1 == "new")
      ∧ (createResources "posts" ⟨none, [], some "slug"⟩).find? (fun q => q.1 == "create")
          = (createResources "posts" noOptions).find? (fun q => q.1 == "create") :=
  ⟨rfl, rfl, by decide, by decide, by decide, by decide⟩

/-- C8: the composer is idempotent — re-running `createRoutes` on its own
output, reading the already-normalized `Route` leaves as leaves, yields the
same tree. -/
theorem createRoutes_idempotent (x : RouteInput) :
    createRoutes (RouteMap.toInput (createRoutes x)) = createRoutes x :=
  createRoutes_toInput (createRoutes x)

/-- C2: in the nested composition
`{brands: {...resources('brands'), products: resources('brands/:brandId/products')}}`,
the composer re-prefixes nothing: `brands.products.show` is
`GET /brands/:brandId/products/:id` and `brands.show` is `GET /brands/:id`
(and likewise for the two `index` routes). -/
theorem createRoutes_no_prefix_inheritance :
    (createRoutes nestedBrandsInput).atPath ["brands", "products", "show"]
        = some (.leaf ⟨.GET, "/brands/:brandId/products/:id"⟩)
      ∧ (createRoutes nestedBrandsInput).atPath ["brands", "show"]
        = some (.leaf ⟨.GET, "/brands/:id"⟩)
      ∧ (createRoutes nestedBrandsInput).atPath ["brands", "products", "index"]
        = some (.leaf ⟨.GET, "/brands/:brandId/products"⟩)
      ∧ (createRoutes nestedBrandsInput).atPath ["brands", "index"]
        = some (.leaf ⟨.GET, "/brands"⟩) :=
  ⟨rfl, rfl, rfl, rfl⟩

/-- C1: the key order of `resources(base, options)` is the canonical
sequence `[index, new, show, create, edit, update, destroy]` filtered by
`only` (each key under its rename), `resource(base, options)` likewise emits
`[new, show, create, edit, update, destroy]` filtered by `only` with `new`
before `show`, and the output is independent of the order of entries in
`only` and in `names` (for `names`, with its keys distinct, as in a JS
object literal). -/
theorem resources_canonical_key_order (base : String) (opts : ResourceOptions)
    (o₁ o₂ : List ActionName) (ho : ∀ a, a ∈ o₁ ↔ a ∈ o₂)
    (n₁ n₂ : List (ActionName × String)) (hp : n₁.Perm n₂)
    (hd : (n₁.map Prod.fst).Nodup) (p : Option String) :
    (createResources base opts).map Prod.fst
        = (keptActions [.index, .new, .«show», .create, .edit, .update, .destroy]
            opts.only).map (renameKey opts.names)
      ∧ (createResource base opts).map Prod.fst
        = (keptActions [.new, .«show», .create, .edit, .update, .destroy]
            opts.only).map (renameKey opts.names)
      ∧ createResources base ⟨some o₁, n₁, p⟩ = createResources base ⟨some o₂, n₂, p⟩
      ∧ createResource base ⟨some o₁, n₁, p⟩ = createResource base ⟨some o₂, n₂, p⟩ := by
  have hr : ∀ a, renameKey n₁ a = renameKey n₂ a := fun a => by
    simp only [renameKey, lookupName_perm hp hd a]
  have hks : keptActions ResourcesMethods (some o₁) = keptActions ResourcesMethods (some o₂) :=
    keptActions_congr _ ho
  have hk : keptActions ResourceMethods (some o₁) = keptActions ResourceMethods (some o₂) :=
    keptActions_congr _ ho
  refine ⟨map_fst_createResources base opts, map_fst_createResource base opts, ?_, ?_⟩
  · simp only [createResources, hks]
    exact List.map_congr_left (fun a _ => by rw [hr a])
  · simp only [createResource, hk]
    exact List.map_congr_left (fun a _ => by rw [hr a])

/-- Witness for C1 at `base = "posts"`, default options, the `only` lists
`[show, index]` / `[index, show]` and the `names` lists
`[(show, view), (index, list)]` / `[(index, list), (show, view)]`. -/
theorem resources_canonical_key_order_witness :
    (createResources "posts" noOptions).map Prod.fst
        = (keptActions [.index, .new, .«show», .create, .edit, .update, .destroy]
            noOptions.only).map (renameKey noOptions.names)
      ∧ (createResource "posts" noOptions).map Prod.fst
        = (keptActions [.new, .«show», .create, .edit, .update, .destroy]
            noOptions.only).map (renameKey noOptions.names)
      ∧ createResources "posts" ⟨some [.«show», .index], [(.«show», "view"), (.index, "list")], none⟩
        = createResources "posts" ⟨some [.index, .«show»], [(.index, "list"), (.«show», "view")], none⟩
      ∧ createResource "posts" ⟨some [.«show», .index], [(.«show», "view"), (.index, "list")], none⟩
        = createResource "posts" ⟨some [.index, .«show»], [(.index, "list"), (.«show», "view")], none⟩ :=
  resources_canonical_key_order "posts" noOptions [.«show», .index] [.index, .«show»]
    (by decide) [(.«show», "view"), (.index, "list")] [(.index, "list"), (.«show», "view")]
    (by decide) (by decide) none

/-- C6: the key list of the generated map is exactly the `only`-surviving
canonical actions under their (possibly renamed) labels; a `names` entry for
an action excluded by `only` is a no-op; with no renames, the canonical key
of an excluded action is not present; and
`resource('book', {only:['show','create'], names:{update:'save'}})` has
exactly the keys `show, create` and no `save` key. -/
theorem only_filter_exact_keys (base : String) (only : List ActionName)
    (names : List (ActionName × String)) (p : Option String) (a : ActionName)
    (ha : a ∉ only) :
    (createResource base ⟨some only, names, p⟩).map Prod.fst
        = (keptActions ResourceMethods (some only)).map (renameKey names)
      ∧ (createResources base ⟨some only, names, p⟩).map Prod.fst
        = (keptActions ResourcesMethods (some only)).map (renameKey names)
      ∧ createResource base ⟨some only, names, p⟩
        = createResource base ⟨some only, names.filter (fun q => !(q.1 == a)), p⟩
      ∧ createResources base ⟨some only, names, p⟩
        = createResources base ⟨some only, names.filter (fun q => !(q.1 == a)), p⟩
      ∧ ActionName.label a ∉ (createResource base ⟨some only, [], p⟩).map Prod.fst
      ∧ ActionName.label a ∉ (createResources base ⟨some only, [], p⟩).map Prod.fst
      ∧ (createResource "book" ⟨some [.«show», .create], [(.update, "save")], none⟩).map Prod.fst
        = ["show", "create"]
      ∧ "save" ∉ (createResource "book"
          ⟨some [.«show», .create], [(.update, "save")], none⟩).map Prod.fst := by
  have hb : ∀ b : ActionName, b ∈ only → renameKey names b
      = renameKey (names.filter (fun q => !(q.1 == a))) b := fun b hbo => by
    have hba : b ≠ a := fun hh => ha (hh ▸ hbo)
    simp only [renameKey, lookupName_filter_ne names a b hba]
  have hlab : ∀ (canonical : List ActionName),
      ActionName.label a ∉ (keptActions canonical (some only)).map (renameKey []) := by
    intro canonical hmem
    rcases List.mem_map.mp hmem with ⟨b, hbk, hbl⟩
    have hbo := (mem_keptActions hbk).2 only rfl
    have : b = a := ActionName.label_injective b a (by simpa [renameKey, lookupName] using hbl)
    exact ha (this ▸ hbo)
  refine ⟨map_fst_createResource base _, map_fst_createResources base _, ?_, ?_, ?_, ?_,
    by decide, by decide⟩
  · simp only [createResource]
    exact List.map_congr_left (fun b hbk => by
      rw [hb b ((mem_keptActions hbk).2 only rfl)])
  · simp only [createResources]
    exact List.map_congr_left (fun b hbk => by
      rw [hb b ((mem_keptActions hbk).2 only rfl)])
  · intro hmem
    rw [map_fst_createResource] at hmem
    exact hlab ResourceMethods hmem
  · intro hmem
    rw [map_fst_createResources] at hmem
    exact hlab ResourcesMethods hmem

/-- Witness for C6 at `base = "book"`, `only = [show, create]`,
`names = [(update, save)]`, excluded action `update`. -/
theorem only_filter_exact_keys_witness :
    (createResource "book" ⟨some [.«show», .create], [(.update, "save")], none⟩).map Prod.fst
        = (keptActions ResourceMethods (some [.«show», .create])).map
            (renameKey [(.update, "save")])
      ∧ (createResources "book" ⟨some [.«show», .create], [(.update, "save")], none⟩).map Prod.fst
        = (keptActions ResourcesMethods (some [.«show», .create])).map
            (renameKey [(.update, "save")])
      ∧ createResource "book" ⟨some [.«show», .create], [(.update, "save")], none⟩
        = createResource "book"
            ⟨some [.«show», .create],
              [((.update : ActionName), "save")].filter (fun q => !(q.1 == .update)), none⟩
      ∧ createResources "book" ⟨some [.«show», .create], [(.update, "save")], none⟩
        = createResources "book"
            ⟨some [.«show», .create],
              [((.update : ActionName), "save")].filter (fun q => !(q.1 == .update)), none⟩
      ∧ ActionName.label .update
          ∉ (createResource "book" ⟨some [.«show», .create], [], none⟩).map Prod.fst
      ∧ ActionName.label .update
          ∉ (createResources "book" ⟨some [.«show», .create], [], none⟩).map Prod.fst
      ∧ (createResource "book" ⟨some [.«show», .create], [(.update, "save")], none⟩).map Prod.fst
        = ["show", "create"]
      ∧ "save" ∉ (createResource "book"
          ⟨some [.«show», .create], [(.update, "save")], none⟩).map Prod.fst :=
  only_filter_exact_keys "book" [.«show», .create] [(.update, "save")] none .update (by decide)

/-- C7: `names` is a pure relabeling, for both generators — the route values
and their emission positions are exactly those of the unrenamed output; a
surviving action `a` renamed to `n` contributes the entry
`(n, canonical route of a)` at the position the canonical entry had; the
canonical key of `a` disappears (when no other action is renamed to it and
`n` differs from it); and actions without a `names` entry keep their
canonical key. -/
theorem names_pure_relabeling (base : String) (only : Option (List ActionName))
    (names : List (ActionName × String)) (p : Option String) (a : ActionName) (n : String)
    (hn : lookupName names a = some n)
    (hmemC : a ∈ keptActions ResourcesMethods only)
    (hmemS : a ∈ keptActions ResourceMethods only)
    (hother : ∀ b : ActionName, b ≠ a → renameKey names b ≠ a.label)
    (hna : n ≠ a.label) :
    (createResources base ⟨only, names, p⟩).map Prod.snd
        = (createResources base ⟨only, [], p⟩).map Prod.snd
      ∧ (n, collectionRoute base (p.getD "id") a) ∈ createResources base ⟨only, names, p⟩
      ∧ (∀ (i : Nat) (r : Route), (createResources base ⟨only, [], p⟩)[i]? = some (a.label, r)
          → (createResources base ⟨only, names, p⟩)[i]? = some (n, r))
      ∧ a.label ∉ (createResources base ⟨only, names, p⟩).map Prod.fst
      ∧ (createResource base ⟨only, names, p⟩).map Prod.snd
        = (createResource base ⟨only, [], p⟩).map Prod.snd
      ∧ (n, singletonRoute base a) ∈ createResource base ⟨only, names, p⟩
      ∧ (∀ (i : Nat) (r : Route), (createResource base ⟨only, [], p⟩)[i]? = some (a.label, r)
          → (createResource base ⟨only, names, p⟩)[i]? = some (n, r))
      ∧ a.label ∉ (createResource base ⟨only, names, p⟩).map Prod.fst
      ∧ (∀ b : ActionName, lookupName names b = none → renameKey names b = b.label) := by
  have hrn : renameKey names a = n := by simp [renameKey, hn]
  refine ⟨?_, ?_, ?_, ?_, ?_, ?_, ?_, ?_, fun b hb => by simp [renameKey, hb]⟩
  · simp [createResources, List.map_map]
  · exact List.mem_map.mpr ⟨a, hmemC, by rw [hrn]⟩
  · intro i r hi
    simp only [createResources, List.getElem?_map] at hi ⊢
    cases hk : (keptActions ResourcesMethods only)[i]? with
    | none => rw [hk] at hi; cases hi
    | some b =>
      rw [hk] at hi
      simp only [Option.map_some'] at hi
      have hb : b.label = a.label := by
        have := congrArg Prod.fst (Option.some.inj hi)
        simpa [renameKey, lookupName] using this
      have hba : b = a := ActionName.label_injective b a hb
      have hr : r = collectionRoute base (p.getD "id") a := by
        have := congrArg Prod.snd (Option.some.inj hi)
        simp only at this
        rw [← this, hba]
      rw [Option.map_some']
      subst hba
      rw [hrn, ← hr]
  · intro hmem'
    rw [map_fst_createResources] at hmem'
    rcases List.mem_map.mp hmem' with ⟨b, _, hbl⟩
    by_cases hba : b = a
    · subst hba
      exact hna (hrn ▸ hbl)
    · exact hother b hba hbl
  · simp [createResource, List.map_map]
  · exact List.mem_map.mpr ⟨a, hmemS, by rw [hrn]⟩
  · intro i r hi
    simp only [createResource, List.getElem?_map] at hi ⊢
    cases hk : (keptActions ResourceMethods only)[i]? with
    | none => rw [hk] at hi; cases hi
    | some b =>
      rw [hk] at hi
      simp only [Option.map_some'] at hi
      have hb : b.label = a.label := by
        have := congrArg Prod.fst (Option.some.inj hi)
        simpa [renameKey, lookupName] using this
      have hba : b = a := ActionName.label_injective b a hb
      have hr : r = singletonRoute base a := by
        have := congrArg Prod.snd (Option.some.inj hi)
        simp only at this
        rw [← this, hba]
      rw [Option.map_some']
      subst hba
      rw [hrn, ← hr]
  · intro hmem'
    rw [map_fst_createResource] at hmem'
    rcases List.mem_map.mp hmem' with ⟨b, _, hbl⟩
    by_cases hba : b = a
    · subst hba
      exact hna (hrn ▸ hbl)
    · exact hother b hba hbl

/-- Witness for C7 at `base = "books"`, no `only`,
`names = [(show, view)]`, action `show` renamed to `view`, for both
generators. -/
theorem names_pure_relabeling_witness :
    (createResources "books" ⟨none, [(.«show», "view")], none⟩).map Prod.snd
        = (createResources "books" ⟨none, [], none⟩).map Prod.snd
      ∧ ("view", collectionRoute "books" ((none : Option String).getD "id") .«show»)
          ∈ createResources "books" ⟨none, [(.«show», "view")], none⟩
      ∧ (∀ (i : Nat) (r : Route), (createResources "books" ⟨none, [], none⟩)[i]?
            = some (ActionName.label .«show», r)
          → (createResources "books" ⟨none, [(.«show», "view")], none⟩)[i]?
            = some ("view", r))
      ∧ ActionName.label .«show»
          ∉ (createResources "books" ⟨none, [(.«show», "view")], none⟩).map Prod.fst
      ∧ (createResource "books" ⟨none, [(.«show», "view")], none⟩).map Prod.snd
        = (createResource "books" ⟨none, [], none⟩).map Prod.snd
      ∧ ("view", singletonRoute "books" .«show»)
          ∈ createResource "books" ⟨none, [(.«show», "view")], none⟩
      ∧ (∀ (i : Nat) (r : Route), (createResource "books" ⟨none, [], none⟩)[i]?
            = some (ActionName.label .«show», r)
          → (createResource "books" ⟨none, [(.«show», "view")], none⟩)[i]?
            = some ("view", r))
      ∧ ActionName.label .«show»
          ∉ (createResource "books" ⟨none, [(.«show», "view")], none⟩).map Prod.fst
      ∧ (∀ b : ActionName, lookupName [(.«show», "view")] b = none
          → renameKey [(.«show», "view")] b = b.label) :=
  names_pure_relabeling "books" none [(.«show», "view")] none .«show» "view"
    (by decide) (by decide) (by decide) (by decide) (by decide)

/-- C10: `redirect(location, init)` returns a response whose status is
`init` itself when `init` is a number, `init.status` when that is given, and
302 otherwise; its `Location` header is the string form of `location` unless
`init.headers` already carries a `Location` header, in which case the
pre-existing value is kept and the `location` argument does not influence the
response at all. -/
theorem redirect_matches_spec (loc loc' : LocationArg) (init : RedirectInit) :
    (redirect loc init).status = redirectStatusSpec init
      ∧ (redirect loc init).headers.getName "Location" = redirectLocationSpec loc init
      ∧ (initLocationHeader init = none ∨ redirect loc init = redirect loc' init) := by
  cases init with
  | noInit =>
    refine ⟨rfl, ?_, Or.inl rfl⟩
    have hh : (⟨[]⟩ : HeadersModel).hasName "Location" = false := rfl
    simp [redirect, hh, getName_setName, redirectLocationSpec, initLocationHeader]
  | statusNum k =>
    refine ⟨rfl, ?_, Or.inl rfl⟩
    have hh : (⟨[]⟩ : HeadersModel).hasName "Location" = false := rfl
    simp [redirect, hh, getName_setName, redirectLocationSpec, initLocationHeader]
  | respInit ri =>
    have hstat : (redirect loc (.respInit ri)).status = redirectStatusSpec (.respInit ri) := by
      cases ri.status <;> simp [redirect, redirectStatusSpec]
    by_cases hcase : (⟨ri.headers.getD []⟩ : HeadersModel).hasName "Location" = true
    · refine ⟨hstat, ?_, Or.inr ?_⟩
      · cases hg : (⟨ri.headers.getD []⟩ : HeadersModel).getName "Location" with
        | none => exact absurd ((getName_none_iff _ _).mp hg) (by simp [hcase])
        | some v =>
          simp [redirect, hcase, redirectLocationSpec, initLocationHeader, hg]
      · simp [redirect, hcase]
    · have hfalse : (⟨ri.headers.getD []⟩ : HeadersModel).hasName "Location" = false := by
        simpa using hcase
      refine ⟨hstat, ?_, Or.inl ?_⟩
      · simp [redirect, hfalse, getName_setName, redirectLocationSpec, initLocationHeader,
          (getName_none_iff _ _).mpr hfalse]
      · simpa [initLocationHeader] using (getName_none_iff _ _).mpr hfalse

end Remix
